import Mathlib

set_option linter.unusedVariables false

/-!
A shallow embedding of the odin repository (an early deep-learning glue
framework) sufficient to settle the frozen claims about it.  Each section
names the source file it is translated from.
-/

namespace OdinModel

/-!
### `src/odin/decorators.py` — the `cache` decorator (`call_memory`)

`call_memory.__call__` builds a key `(args, kwargs, object_vars)` where
`object_vars` maps each tracked attribute name that the instance has to
its current value (only when the decorated callable is a method), scans
the linear list `self.cache_key` for that key, returns the stored value
at the first matching index on a hit, and on a miss evaluates the wrapped
function once and appends the key and the value to the two lists.

Python dicts compare by contents; both dicts of the key are represented
here by association lists built in a canonical order (the tracking order
for `object_vars`, a canonical order for `kwargs`), so list equality is
dict equality.
-/

/-- The cache key built by `call_memory.__call__`
(`cache_key = (args, kwargs, object_vars)`). -/
structure CacheKey (A : Type) where
  args : List A
  kwargs : List (String × A)
  objectVars : List (String × A)
deriving DecidableEq

/-- The mutable state of one `call_memory` object: the two linear lists
`self.cache_key` and `self.cache_value`. -/
structure CacheState (A V : Type) where
  keys : List (CacheKey A)
  values : List V

/-- Source `call_memory.__init__`: both lists start empty. -/
def cmInit (A V : Type) : CacheState A V := ⟨[], []⟩

/-- Source `list.index` of Python (first index of an element, `none` when the
element is not in the list; Python raises `ValueError` there, but
`__call__` only calls `.index` after an `in` test). -/
def pyIndex [DecidableEq A] : List A → A → Option Nat
  | [], _ => none
  | x :: xs, k => if x = k then some 0 else (pyIndex xs k).map (· + 1)

/-- The key construction of `call_memory.__call__`: `object_vars` holds,
for each tracked name (in tracking order), the attribute value of the
instance when it has that attribute, and only when the callable is bound
as a method.  `attrs` stands for `getattr` on `args[0]`, the instance. -/
def makeKey (isMethod : Bool) (tracking : List String) (attrs : String → Option A)
    (args : List A) (kwargs : List (String × A)) : CacheKey A :=
  { args := args
    kwargs := kwargs
    objectVars :=
      if isMethod then tracking.filterMap (fun k => (attrs k).map (fun v => (k, v)))
      else [] }

/-- Source `call_memory.__call__`.  `f` is the wrapped function (called as
`f args kwargs`); the result is the returned value, the new cache state,
and the number of times the wrapped function was invoked.  `none` models
the `IndexError` Python would raise if the value list were shorter than
the position of the matching key (unreachable, see the invariant). -/
def cmCall [DecidableEq A] (f : List A → List (String × A) → V)
    (isMethod : Bool) (tracking : List String) (attrs : String → Option A)
    (st : CacheState A V) (args : List A) (kwargs : List (String × A)) :
    Option (V × CacheState A V × Nat) :=
  let k := makeKey isMethod tracking attrs args kwargs
  match pyIndex st.keys k with
  | some i =>
    match st.values[i]? with
    | some v => some (v, st, 0)
    | none => none
  | none =>
    let v := f args kwargs
    some (v, ⟨st.keys ++ [k], st.values ++ [v]⟩, 1)

/-- Source `call_memory.__delete__`: both lists are reset to empty. -/
def cmDelete (st : CacheState A V) : CacheState A V := ⟨[], []⟩

/-- The invariant of claim C9: the two lists stay aligned and the key
list has no duplicate key. -/
def cacheInv (st : CacheState A V) : Prop :=
  st.keys.length = st.values.length ∧ st.keys.Nodup

-- Basic facts about `pyIndex`.

theorem pyIndex_eq_none_iff [DecidableEq A] (l : List A) (k : A) :
    pyIndex l k = none ↔ k ∉ l := by
  induction l with
  | nil => simp [pyIndex]
  | cons x xs ih =>
    by_cases hx : x = k
    · subst hx; simp [pyIndex]
    · simp [pyIndex, hx, ih, Ne.symm hx]

theorem pyIndex_first [DecidableEq A] (l : List A) (k : A) (i : Nat)
    (h : pyIndex l k = some i) :
    i < l.length ∧ l[i]? = some k ∧ ∀ j, j < i → l[j]? ≠ some k := by
  induction l generalizing i with
  | nil => simp [pyIndex] at h
  | cons x xs ih =>
    by_cases hx : x = k
    · subst hx
      simp [pyIndex] at h
      subst h
      refine ⟨by simp, by simp, ?_⟩
      intro j hj
      omega
    · simp [pyIndex, hx] at h
      obtain ⟨i', hi', rfl⟩ := h
      obtain ⟨h1, h2, h3⟩ := ih i' hi'
      refine ⟨by simpa using h1, by simpa using h2, ?_⟩
      intro j hj
      cases j with
      | zero => simpa using hx
      | succ j' =>
        have := h3 j' (by omega)
        simpa using this

theorem pyIndex_mem_isSome [DecidableEq A] (l : List A) (k : A) (h : k ∈ l) :
    ∃ i, pyIndex l k = some i := by
  cases hp : pyIndex l k with
  | none => exact absurd ((pyIndex_eq_none_iff l k).1 hp) (by simpa using h)
  | some i => exact ⟨i, rfl⟩

/-- C1: a `cache`-decorated call whose key equals an earlier call's key
returns the value stored at the first matching index without invoking
the wrapped function (the result and state are the same for any wrapped
function `g`, and the invocation count is 0); a call whose key is new
invokes the wrapped function once and appends the key and the value. -/
theorem cache_call_hit_miss [DecidableEq A]
    (f g : List A → List (String × A) → V)
    (isMethod : Bool) (tracking : List String) (attrs : String → Option A)
    (st : CacheState A V) (args : List A) (kwargs : List (String × A))
    (hlen : st.keys.length = st.values.length) :
    (makeKey isMethod tracking attrs args kwargs ∈ st.keys →
      ∃ i v, pyIndex st.keys (makeKey isMethod tracking attrs args kwargs) = some i ∧
        st.keys[i]? = some (makeKey isMethod tracking attrs args kwargs) ∧
        (∀ j, j < i → st.keys[j]? ≠ some (makeKey isMethod tracking attrs args kwargs)) ∧
        st.values[i]? = some v ∧
        cmCall f isMethod tracking attrs st args kwargs = some (v, st, 0) ∧
        cmCall g isMethod tracking attrs st args kwargs = some (v, st, 0)) ∧
    (makeKey isMethod tracking attrs args kwargs ∉ st.keys →
      cmCall f isMethod tracking attrs st args kwargs =
        some (f args kwargs,
          ⟨st.keys ++ [makeKey isMethod tracking attrs args kwargs],
           st.values ++ [f args kwargs]⟩, 1)) := by
  constructor
  · intro hmem
    obtain ⟨i, hi⟩ := pyIndex_mem_isSome _ _ hmem
    obtain ⟨hilt, hkey, hfirst⟩ := pyIndex_first _ _ _ hi
    have hvlt : i < st.values.length := hlen ▸ hilt
    obtain ⟨v, hv⟩ : ∃ v, st.values[i]? = some v :=
      ⟨st.values[i], (List.getElem?_eq_some_iff).2 ⟨hvlt, rfl⟩⟩
    exact ⟨i, v, hi, hkey, hfirst, hv, by simp [cmCall, hi, hv], by simp [cmCall, hi, hv]⟩
  · intro hmem
    have hnone : pyIndex st.keys (makeKey isMethod tracking attrs args kwargs) = none :=
      (pyIndex_eq_none_iff _ _).2 hmem
    simp [cmCall, hnone]

/-- Witness for `cache_call_hit_miss` at a concrete state. -/
theorem cache_call_hit_miss_witness :
    ([⟨[1], [], []⟩] : List (CacheKey Nat)).length = ([7] : List Nat).length ∧
    ((makeKey false [] (fun _ => none) [1] [] ∈
        (⟨[⟨[1], [], []⟩], [7]⟩ : CacheState Nat Nat).keys →
      ∃ i v, pyIndex (⟨[⟨[1], [], []⟩], [7]⟩ : CacheState Nat Nat).keys
          (makeKey false [] (fun _ => none) [1] []) = some i ∧
        (⟨[⟨[1], [], []⟩], [7]⟩ : CacheState Nat Nat).keys[i]? =
          some (makeKey false [] (fun _ => none) [1] []) ∧
        (∀ j, j < i → (⟨[⟨[1], [], []⟩], [7]⟩ : CacheState Nat Nat).keys[j]? ≠
          some (makeKey false [] (fun _ => none) [1] [])) ∧
        (⟨[⟨[1], [], []⟩], [7]⟩ : CacheState Nat Nat).values[i]? = some v ∧
        cmCall (fun _ _ => 9) false [] (fun _ => none)
          (⟨[⟨[1], [], []⟩], [7]⟩ : CacheState Nat Nat) [1] [] = some (v, ⟨[⟨[1], [], []⟩], [7]⟩, 0) ∧
        cmCall (fun _ _ => 11) false [] (fun _ => none)
          (⟨[⟨[1], [], []⟩], [7]⟩ : CacheState Nat Nat) [1] [] = some (v, ⟨[⟨[1], [], []⟩], [7]⟩, 0)) ∧
    (makeKey false [] (fun _ => none) [1] [] ∉
        (⟨[⟨[1], [], []⟩], [7]⟩ : CacheState Nat Nat).keys →
      cmCall (fun _ _ => 9) false [] (fun _ => none)
        (⟨[⟨[1], [], []⟩], [7]⟩ : CacheState Nat Nat) [1] [] =
        some (9, ⟨[⟨[1], [], []⟩] ++ [makeKey false [] (fun _ => none) [1] []],
          [7] ++ [9]⟩, 1))) :=
  ⟨rfl, cache_call_hit_miss (fun _ _ => 9) (fun _ _ => 11) false [] (fun _ => none)
    ⟨[⟨[1], [], []⟩], [7]⟩ [1] [] rfl⟩

/-- C9: the two cache lists have equal length and the key list has no
duplicates after construction; every successful call preserves this (a
hit changes nothing, a miss appends exactly one entry to each list), and
deletion resets both lists to empty. -/
theorem cache_lists_invariant [DecidableEq A]
    (f : List A → List (String × A) → V)
    (isMethod : Bool) (tracking : List String) (attrs : String → Option A) :
    cacheInv (cmInit A V) ∧
    (∀ (st : CacheState A V) args kwargs v st' n, cacheInv st →
      cmCall f isMethod tracking attrs st args kwargs = some (v, st', n) →
      cacheInv st' ∧
      (makeKey isMethod tracking attrs args kwargs ∈ st.keys → st' = st) ∧
      (makeKey isMethod tracking attrs args kwargs ∉ st.keys →
        st'.keys = st.keys ++ [makeKey isMethod tracking attrs args kwargs] ∧
        st'.values = st.values ++ [v])) ∧
    (∀ st : CacheState A V, cacheInv (cmDelete st)) := by
  refine ⟨⟨rfl, List.nodup_nil⟩, ?_, fun st => ⟨rfl, List.nodup_nil⟩⟩
  intro st args kwargs v st' n hinv hcall
  cases hp : pyIndex st.keys (makeKey isMethod tracking attrs args kwargs) with
  | some i =>
    have hmem : makeKey isMethod tracking attrs args kwargs ∈ st.keys := by
      by_contra hnm
      rw [(pyIndex_eq_none_iff _ _).2 hnm] at hp
      exact Option.noConfusion hp
    have hilt : i < st.keys.length := (pyIndex_first _ _ _ hp).1
    have hvlt : i < st.values.length := hinv.1 ▸ hilt
    have hv : st.values[i]? = some st.values[i] :=
      (List.getElem?_eq_some_iff).2 ⟨hvlt, rfl⟩
    rw [cmCall] at hcall
    simp only [hp, hv, Option.some.injEq, Prod.mk.injEq] at hcall
    obtain ⟨rfl, rfl, rfl⟩ := hcall
    exact ⟨hinv, fun _ => rfl, fun hnm => absurd hmem hnm⟩
  | none =>
    have hnm : makeKey isMethod tracking attrs args kwargs ∉ st.keys :=
      (pyIndex_eq_none_iff _ _).1 hp
    rw [cmCall] at hcall
    simp only [hp, Option.some.injEq, Prod.mk.injEq] at hcall
    obtain ⟨rfl, rfl, rfl⟩ := hcall
    refine ⟨⟨by simp [hinv.1], ?_⟩, fun hm => absurd hm hnm, fun _ => ⟨rfl, rfl⟩⟩
    simpa [List.nodup_append] using ⟨hinv.2, hnm⟩

/-- Witness for `cache_lists_invariant`: a concrete miss from the empty
cache preserves the invariant. -/
theorem cache_lists_invariant_witness :
    cacheInv (⟨[makeKey false [] (fun _ => none) [1] []], [5]⟩ : CacheState Nat Nat) :=
  (((cache_lists_invariant (fun _ _ => 5) false [] (fun _ => none)).2.1
    (cmInit Nat Nat) [1] [] 5 ⟨[makeKey false [] (fun _ => none) [1] []], [5]⟩ 1
    ⟨rfl, List.nodup_nil⟩ rfl)).1

/-!
### `src/odin/decorators.py` — the `typecheck` decorator (`_typecheck`)

`_typecheck.__call__` at debug 0 returns `self.func(*args)` (keyword
arguments are dropped).  Otherwise it compares the types of the non-self
arguments (positional after `self` when bound as a method, then the
keyword-argument values) against the declared input types over the
common prefix, raising `TypeError` at debug 2 or printing a warning at
debug 1 on a mismatch, then calls the wrapped function, then checks the
result types against the declared output types the same way (also
failing when more output types were declared than results produced), and
finally returns the wrapped function's result.

Values are drawn from a type `α` with a type-of view `typeOf : α → Ty`;
the wrapped function takes the positional arguments and the
keyword-argument values.
-/

/-- A Python return value as seen by the output check: a tuple/list of
values, or a single non-tuple value. -/
inductive FuncRes (α : Type) where
  | single (v : α)
  | multi (vs : List α)
deriving DecidableEq

/-- Source `res_types` of `_typecheck.__call__`: a single value contributes its
own type, a tuple/list the types of its elements. -/
def resTypes (typeOf : α → Ty) : FuncRes α → List Ty
  | .single v => [typeOf v]
  | .multi vs => vs.map typeOf

/-- The fields set by `_typecheck.set_types`. -/
structure TCState (Ty : Type) where
  inputs : Option (List Ty)
  outputs : Option (List Ty)
  debug : Nat
  isMethod : Bool

/-- Outcome of a `_typecheck.__call__`: the returned result together
with the number of `TypeWarning` lines printed, or a raised
`TypeError`. -/
inductive TCOut (α : Type) where
  | ok (r : FuncRes α) (warnings : Nat)
  | typeError
deriving DecidableEq

/-- The input mismatch test of `_typecheck.__call__`: types of the
non-self arguments differ from the declared input types on the common
prefix (length `min(len(input_args), len(self.inputs))`). -/
def tcInputMismatch [DecidableEq Ty] (typeOf : α → Ty) (tc : TCState Ty)
    (args kwargs : List α) : Bool :=
  match tc.inputs with
  | none => false
  | some ins =>
    let inputArgs := (if tc.isMethod then args.drop 1 else args) ++ kwargs
    let argtypes := inputArgs.map typeOf
    let len := Nat.min inputArgs.length ins.length
    decide (argtypes.take len ≠ ins.take len)

/-- The output mismatch test of `_typecheck.__call__`: more output types
declared than results produced, or the produced result types differ from
the declared output types on the common prefix. -/
def tcOutputMismatch [DecidableEq Ty] (typeOf : α → Ty) (tc : TCState Ty)
    (results : FuncRes α) : Bool :=
  match tc.outputs with
  | none => false
  | some outs =>
    let rts := resTypes typeOf results
    let len := Nat.min rts.length outs.length
    decide (outs.length > rts.length ∨ rts.take len ≠ outs.take len)

/-- Source `_typecheck.__call__`.  `f` is the wrapped function, applied to the
positional arguments and the keyword-argument values. -/
def tcCall [DecidableEq Ty] (typeOf : α → Ty) (tc : TCState Ty)
    (f : List α → List α → FuncRes α) (args kwargs : List α) : TCOut α :=
  if tc.debug = 0 then
    .ok (f args []) 0
  else
    let inMis := tcInputMismatch typeOf tc args kwargs
    if inMis && decide (tc.debug = 2) then
      .typeError
    else
      let w1 : Nat := if inMis && decide (tc.debug = 1) then 1 else 0
      let results := f args kwargs
      let outMis := tcOutputMismatch typeOf tc results
      if outMis && decide (tc.debug = 2) then
        .typeError
      else
        .ok results (w1 + if outMis && decide (tc.debug = 1) then 1 else 0)

/-- C5: at debug 2, a call raises `TypeError` before invoking the
wrapped function exactly when the declared-input prefix check fails
(the outcome is `typeError` for every wrapped function `g`); when the
input check passes, the call raises `TypeError` exactly when the output
check on the produced result fails, and otherwise returns the wrapped
function's result unchanged; at debug 1 the same two conditions each
print one warning instead of raising. -/
theorem typecheck_debug2 [DecidableEq Ty] (typeOf : α → Ty)
    (ins outs : Option (List Ty)) (isMethod : Bool)
    (f : List α → List α → FuncRes α) (args kwargs : List α) :
    (tcInputMismatch typeOf ⟨ins, outs, 2, isMethod⟩ args kwargs = true →
      ∀ g : List α → List α → FuncRes α,
        tcCall typeOf ⟨ins, outs, 2, isMethod⟩ g args kwargs = .typeError) ∧
    (tcInputMismatch typeOf ⟨ins, outs, 2, isMethod⟩ args kwargs = false →
      (tcCall typeOf ⟨ins, outs, 2, isMethod⟩ f args kwargs = .typeError ↔
        tcOutputMismatch typeOf ⟨ins, outs, 2, isMethod⟩ (f args kwargs) = true) ∧
      (tcOutputMismatch typeOf ⟨ins, outs, 2, isMethod⟩ (f args kwargs) = false →
        tcCall typeOf ⟨ins, outs, 2, isMethod⟩ f args kwargs = .ok (f args kwargs) 0)) ∧
    (tcCall typeOf ⟨ins, outs, 1, isMethod⟩ f args kwargs =
      .ok (f args kwargs)
        ((if tcInputMismatch typeOf ⟨ins, outs, 1, isMethod⟩ args kwargs then 1 else 0) +
         (if tcOutputMismatch typeOf ⟨ins, outs, 1, isMethod⟩ (f args kwargs) then 1 else 0))) := by
  refine ⟨?_, ?_, ?_⟩
  · intro hin g
    have hin' : tcInputMismatch typeOf ⟨ins, outs, 2, isMethod⟩ args kwargs = true := by
      simpa [tcInputMismatch] using hin
    simp [tcCall, hin']
  · intro hin
    constructor
    · constructor
      · intro hcall
        by_contra hout
        have hout' : tcOutputMismatch typeOf ⟨ins, outs, 2, isMethod⟩ (f args kwargs) = false := by
          simpa using hout
        simp [tcCall, hin, hout'] at hcall
      · intro hout
        simp [tcCall, hin, hout]
    · intro hout
      simp [tcCall, hin, hout]
  · cases hin : tcInputMismatch typeOf ⟨ins, outs, 1, isMethod⟩ args kwargs <;>
      cases hout : tcOutputMismatch typeOf ⟨ins, outs, 1, isMethod⟩ (f args kwargs) <;>
      simp [tcCall, hin, hout]

/-- Witness for `typecheck_debug2` at a concrete mismatching call. -/
theorem typecheck_debug2_witness :
    tcInputMismatch (fun n : Nat => n % 2) (⟨some [0], none, 2, false⟩ : TCState Nat) [1] [] = true ∧
    tcCall (fun n : Nat => n % 2) (⟨some [0], none, 2, false⟩ : TCState Nat)
      (fun a _ => .single 5) [1] [] = .typeError :=
  ⟨by decide,
   (typecheck_debug2 (fun n : Nat => n % 2) (some [0]) none false
      (fun a _ => .single 5) [1] []).1 (by decide) (fun a _ => .single 5)⟩

/-- C10: at debug 0 the wrapped function is invoked with the positional
arguments only; all keyword arguments are dropped, so the outcome is
`f args []` whatever keyword arguments were passed. -/
theorem typecheck_debug0_drops_kwargs [DecidableEq Ty] (typeOf : α → Ty)
    (ins outs : Option (List Ty)) (isMethod : Bool)
    (f : List α → List α → FuncRes α) (args kwargs kwargs' : List α) :
    tcCall typeOf ⟨ins, outs, 0, isMethod⟩ f args kwargs = .ok (f args []) 0 ∧
    tcCall typeOf ⟨ins, outs, 0, isMethod⟩ f args kwargs =
      tcCall typeOf ⟨ins, outs, 0, isMethod⟩ f args kwargs' := by
  constructor <;> simp [tcCall]

/-!
### `src/odin/tensor/tf_backend.py` — `normalize_axis` and the reductions

`normalize_axis(axis, ndim)` turns a tuple into a list, then replaces
every negative entry `a` (skipping `None` entries) by `a % ndim`; a
plain integer axis is treated the same way, and `None` is returned
unchanged.  Python's `%` on a negative dividend and positive divisor is
floor modulo, which Lean's `Int.emod` agrees with for a positive
divisor.  Each reduction (`max`, `min`, `sum`, `prod`, `var`, `std`,
`mean`, `any`) normalizes its axis against `ndim(x)` before delegating
to the underlying `tf.reduce_*`; we record the delegated call
symbolically.
-/

/-- The `axis` argument of the backend reductions: `None`, a plain
integer, or a tuple/list of optional integers. -/
inductive Axis where
  | noAxis
  | single (a : Int)
  | multi (as : List (Option Int))
deriving DecidableEq

/-- Source `normalize_axis(axis, ndim)`. -/
def normalize_axis (axis : Axis) (ndim : Nat) : Axis :=
  match axis with
  | .noAxis => .noAxis
  | .single a => if a < 0 then .single (a % (ndim : Int)) else .single a
  | .multi as =>
    .multi (as.map (fun a? =>
      match a? with
      | some a => if a < 0 then some (a % (ndim : Int)) else some a
      | none => none))

/-- A backend tensor, reduced to the only datum the axis handling
reads: its rank (`ndim(x) = len(x.get_shape())`). -/
structure Tensor where
  rank : Nat
deriving DecidableEq

/-- The reduction kinds of the backend module. -/
inductive RedOp where
  | rmax | rmin | rsum | rprod | rvar | rstd | rmean | rany
deriving DecidableEq

/-- The symbolic `tf.reduce_*` call a backend reduction delegates to:
the operation, the (already normalized) reduction indices, and the
`keep_dims` flag. -/
structure Reduce where
  op : RedOp
  reductionIndices : Axis
  keepDims : Bool
deriving DecidableEq

/-- Source `max(x, axis, keepdims)`. -/
def tmax (x : Tensor) (axis : Axis) (keepdims : Bool) : Reduce :=
  ⟨.rmax, normalize_axis axis x.rank, keepdims⟩

/-- Source `min(x, axis, keepdims)`. -/
def tmin (x : Tensor) (axis : Axis) (keepdims : Bool) : Reduce :=
  ⟨.rmin, normalize_axis axis x.rank, keepdims⟩

/-- Source `sum(x, axis, keepdims)`. -/
def tsum (x : Tensor) (axis : Axis) (keepdims : Bool) : Reduce :=
  ⟨.rsum, normalize_axis axis x.rank, keepdims⟩

/-- Source `prod(x, axis, keepdims)`. -/
def tprod (x : Tensor) (axis : Axis) (keepdims : Bool) : Reduce :=
  ⟨.rprod, normalize_axis axis x.rank, keepdims⟩

/-- Source `var(x, axis, keepdims)` (the final `tf.reduce_mean` over the
squared deviations carries the normalized axis). -/
def tvar (x : Tensor) (axis : Axis) (keepdims : Bool) : Reduce :=
  ⟨.rvar, normalize_axis axis x.rank, keepdims⟩

/-- Source `std(x, axis, keepdims)`. -/
def tstd (x : Tensor) (axis : Axis) (keepdims : Bool) : Reduce :=
  ⟨.rstd, normalize_axis axis x.rank, keepdims⟩

/-- Source `mean(x, axis, keepdims)`. -/
def tmean (x : Tensor) (axis : Axis) (keepdims : Bool) : Reduce :=
  ⟨.rmean, normalize_axis axis x.rank, keepdims⟩

/-- Source `any(x, axis, keepdims)`. -/
def tany (x : Tensor) (axis : Axis) (keepdims : Bool) : Reduce :=
  ⟨.rany, normalize_axis axis x.rank, keepdims⟩

/-- C7: every reduction normalizes its axis through `normalize_axis`
first; `normalize_axis` replaces a negative single axis `a` by
`a % n` — which is `a + n` whenever `-n ≤ a < 0` — leaves a non-negative
axis and `None` unchanged, and applies the same rule to every element of
a tuple/list axis independently. -/
theorem reductions_normalize_axis (x : Tensor) (axis : Axis) (keepdims : Bool)
    (a : Int) (n : Nat) (as : List (Option Int))
    (hneg : -(n : Int) ≤ a) (hlt : a < 0) :
    (tmax x axis keepdims).reductionIndices = normalize_axis axis x.rank ∧
    (tmin x axis keepdims).reductionIndices = normalize_axis axis x.rank ∧
    (tsum x axis keepdims).reductionIndices = normalize_axis axis x.rank ∧
    (tprod x axis keepdims).reductionIndices = normalize_axis axis x.rank ∧
    (tvar x axis keepdims).reductionIndices = normalize_axis axis x.rank ∧
    (tstd x axis keepdims).reductionIndices = normalize_axis axis x.rank ∧
    (tmean x axis keepdims).reductionIndices = normalize_axis axis x.rank ∧
    (tany x axis keepdims).reductionIndices = normalize_axis axis x.rank ∧
    normalize_axis (.single a) n = .single (a + n) ∧
    (∀ b : Int, 0 ≤ b → normalize_axis (.single b) n = .single b) ∧
    normalize_axis .noAxis n = .noAxis ∧
    normalize_axis (.multi as) n =
      .multi (as.map (fun a? => a?.map (fun b => if b < 0 then b % (n : Int) else b))) := by
  have hmod : a % (n : Int) = a + n := by
    have h1 : (a + (n : Int)) % (n : Int) = a % (n : Int) := by
      simp
    rw [← h1, Int.emod_eq_of_lt (by omega) (by omega)]
  refine ⟨rfl, rfl, rfl, rfl, rfl, rfl, rfl, rfl, ?_, ?_, rfl, ?_⟩
  · simp [normalize_axis, hlt, hmod]
  · intro b hb
    have hb' : ¬ b < 0 := by omega
    simp [normalize_axis, hb']
  · simp only [normalize_axis, Axis.multi.injEq]
    apply List.map_congr_left
    intro a? _
    cases a? with
    | none => rfl
    | some b => by_cases hb : b < 0 <;> simp [hb]

/-- Witness for `reductions_normalize_axis` at rank 3, axis -1. -/
theorem reductions_normalize_axis_witness :
    -((3 : Nat) : Int) ≤ (-1 : Int) ∧
    normalize_axis (.single (-1)) 3 = .single ((-1) + (3 : Nat)) :=
  ⟨by decide,
   ((reductions_normalize_axis ⟨3⟩ .noAxis false (-1) 3 [] (by decide)
      (by decide)).2.2.2.2.2.2.2.2).1⟩

/-!
### `src/odin/tensor/tf_backend.py` — `scan`

`scan` raises `ValueError` when `n_steps` is `None` (before any step
runs).  Otherwise the two normalization branches flip `go_backwards`
and take absolute values, after which the loop runs over
`range(n_steps-1, -1, -1)` when going backwards and `range(n_steps)`
otherwise, calling the step function once per index.  The embedding
keeps the list of loop indices (the order in which `itemgetter(i)` is
applied to the sequences) and folds an abstract step over it; packing
the step outputs with `tf.pack` is not involved in the claim.
-/

/-- The backend `scan`, reduced to its control flow: the result is the
list of loop indices in execution order together with the state after
folding `step` over them; `none` n_steps is the raised `ValueError`. -/
def scan (step : σ → Nat → σ) (init : σ) (goBackwards : Bool)
    (nSteps : Option Int) : Except Unit (List Nat × σ) :=
  match nSteps with
  | none => .error ()
  | some n0 =>
    let p1 : Bool × Int :=
      if goBackwards && decide (n0 < 0) then (false, -n0) else (goBackwards, n0)
    let p2 : Bool × Int :=
      if p1.1 || decide (p1.2 < 0) then (true, |p1.2|) else p1
    let n : Nat := p2.2.toNat
    let loopRange := if p2.1 then (List.range n).reverse else List.range n
    .ok (loopRange, loopRange.foldl step init)

/-- C8: `scan` raises `ValueError` when `n_steps` is `None`, before any
step executes (the outcome does not depend on the step function); with
`n_steps = n` the step function runs exactly `|n|` times, and the
iteration order over the sequence indices is reversed exactly when one
of `go_backwards` and `n < 0` holds but not both — in particular
`go_backwards = True` with negative `n` iterates forwards. -/
theorem scan_control_flow (step : σ → Nat → σ) (init : σ)
    (goBackwards : Bool) (n : Int) :
    (∀ step' : σ → Nat → σ, ∀ init' : σ,
      scan step' init' goBackwards none = .error ()) ∧
    (∃ idxs, scan step init goBackwards (some n) = .ok (idxs, idxs.foldl step init) ∧
      idxs.length = n.natAbs ∧
      idxs = (if xor goBackwards (decide (n < 0)) then (List.range n.natAbs).reverse
              else List.range n.natAbs)) := by
  refine ⟨fun step' init' => rfl, ?_⟩
  by_cases hn : n < 0
  · cases goBackwards with
    | false =>
      refine ⟨(List.range n.natAbs).reverse, ?_, by simp, by simp [hn]⟩
      have h1 : (|n|).toNat = n.natAbs := by
        rw [abs_of_nonpos (le_of_lt hn)]; omega
      simp [scan, hn, h1]
    | true =>
      refine ⟨List.range n.natAbs, ?_, by simp, by simp [hn]⟩
      have h1 : (-n).toNat = n.natAbs := by omega
      have h2 : ¬(-n < 0) := by omega
      simp [scan, hn, h1, h2]
  · cases goBackwards with
    | false =>
      refine ⟨List.range n.natAbs, ?_, by simp, by simp [hn]⟩
      have h1 : n.toNat = n.natAbs := by omega
      simp [scan, hn, h1]
    | true =>
      refine ⟨(List.range n.natAbs).reverse, ?_, by simp, by simp [hn]⟩
      have h1 : (|n|).toNat = n.natAbs := by
        rw [abs_of_nonneg (by omega)]; omega
      simp [scan, hn, h1]

/-!
### `src/odin/tensor/tf_backend.py` — `Function` and the global-updates registry

`add_global_updates(variable, value)` records a pending update in the
module-level `_GLOBALS_UPDATES` ordered dict.  `Function.__init__` wraps
a single non-list output into a one-element list (remembering whether to
return a list), converts `updates` and the pending global updates into
`tf.assign` operations, and resets the registry.  `Function.__call__`
zips the input placeholders' names with the call arguments into the feed
dict, runs outputs + updates + global updates in one `session.run`, and
returns the first `len(outputs)` run values when the outputs were given
as a list/tuple and the first run value otherwise.

Variables are `V`, graph expressions are `E`, runtime values are `Val`;
`tf.assign(p, new_p)` is kept symbolically, and `session.run` is an
abstract parameter mapping a list of run targets and a feed dict to a
list of values.
-/

/-- A target handed to `session.run`: a plain output expression or a
`tf.assign` operation. -/
inductive RunExpr (V E : Type) where
  | expr (e : E)
  | assign (p : V) (newP : E)
deriving DecidableEq

/-- The module-level `_GLOBALS_UPDATES` ordered dict (variable to
pending value, in insertion order). -/
structure TFState (V E : Type) where
  globalUpdates : List (V × E)

/-- Source `add_global_updates(variable, value)`. (OrderedDict assignment: an
existing binding for the variable would be overwritten in place; the
claims only need the fresh-variable case, recorded here as the ordered
dict's item list after the call.) -/
def add_global_updates [DecidableEq V] (st : TFState V E) (v : V) (e : E) :
    TFState V E :=
  if st.globalUpdates.any (fun p => p.1 = v) then
    ⟨st.globalUpdates.map (fun p => if p.1 = v then (v, e) else p)⟩
  else
    ⟨st.globalUpdates ++ [(v, e)]⟩

/-- Source `reset_global_updates()`. -/
def reset_global_updates (st : TFState V E) : TFState V E := ⟨[]⟩

/-- The outputs argument of `Function.__init__`: a list/tuple of
expressions, or a single expression. -/
inductive FnOutputs (E : Type) where
  | single (e : E)
  | list (es : List E)

/-- A built backend `Function`: input placeholders (by name), the output
list, the return-a-list flag, and the two groups of assignment
operations. -/
structure TFFunction (V E : Type) where
  inputs : List String
  outputs : List E
  returnList : Bool
  updates : List (RunExpr V E)
  globalUpdate : List (RunExpr V E)

/-- Source `Function.__init__`: wraps a single output, converts `updates` and
the pending global updates to assignment operations, and resets the
global registry. -/
def functionInit (inputs : List String) (outputs : FnOutputs E)
    (updates : List (V × E)) (st : TFState V E) :
    TFFunction V E × TFState V E :=
  let outsRl : List E × Bool :=
    match outputs with
    | .single e => ([e], false)
    | .list es => (es, true)
  (⟨inputs, outsRl.1, outsRl.2,
    updates.map (fun p => RunExpr.assign p.1 p.2),
    st.globalUpdates.map (fun p => RunExpr.assign p.1 p.2)⟩,
   reset_global_updates st)

/-- Source `Function.__call__`: feed dict from the input names zipped with the
arguments, one `session.run` over outputs + updates + global updates,
then the output-value selection (`updated[:len(outputs)]` or
`updated[0]`, the latter `none` when the run returned nothing). -/
def functionCall (run : List (RunExpr V E) → List (String × Val) → List Val)
    (f : TFFunction V E) (args : List Val) : List Val ⊕ Option Val :=
  let feed := f.inputs.zip args
  let updated := run (f.outputs.map RunExpr.expr ++ f.updates ++ f.globalUpdate) feed
  if f.returnList then .inl (updated.take f.outputs.length)
  else .inr updated.head?

/-- C6: building a `Function` turns the pending global-updates registry
into assignment operations attached to the function and resets the
registry; calling it feeds the arguments keyed by the input names and
evaluates outputs, updates, and the captured global updates in one
session run — the outcome depends on `run` only through its value on
that single combined target list — returning all output values when the
outputs were a list/tuple and the single first output value otherwise
(for a pointwise-evaluating `run`, these are the evaluations of the
outputs under the feed dict). -/
theorem function_global_updates (inputs : List String) (updates : List (V × E))
    (st : TFState V E) (args : List Val) (e : E) (es : List E)
    (eval : RunExpr V E → List (String × Val) → Val) :
    ((functionInit inputs (.list es) updates st).2.globalUpdates = [] ∧
      (functionInit inputs (.single e) updates st).2.globalUpdates = []) ∧
    ((functionInit inputs (.list es) updates st).1.globalUpdate =
        st.globalUpdates.map (fun p => RunExpr.assign p.1 p.2) ∧
      (functionInit inputs (.list es) updates st).1.updates =
        updates.map (fun p => RunExpr.assign p.1 p.2)) ∧
    (∀ run₁ run₂ : List (RunExpr V E) → List (String × Val) → List Val,
      ∀ f : TFFunction V E,
      run₁ (f.outputs.map RunExpr.expr ++ f.updates ++ f.globalUpdate) (f.inputs.zip args) =
        run₂ (f.outputs.map RunExpr.expr ++ f.updates ++ f.globalUpdate) (f.inputs.zip args) →
      functionCall run₁ f args = functionCall run₂ f args) ∧
    (functionCall (fun targets feed => targets.map (fun t => eval t feed))
        (functionInit inputs (.list es) updates st).1 args =
      .inl (es.map (fun o => eval (RunExpr.expr o) (inputs.zip args)))) ∧
    (functionCall (fun targets feed => targets.map (fun t => eval t feed))
        (functionInit inputs (.single e) updates st).1 args =
      .inr (some (eval (RunExpr.expr e) (inputs.zip args)))) := by
  refine ⟨⟨rfl, rfl⟩, ⟨rfl, rfl⟩, ?_, ?_, ?_⟩
  · intro run₁ run₂ f hrun
    simp only [functionCall, hrun]
  · simp only [functionCall, functionInit, reset_global_updates]
    simp [List.map_append, List.map_map, List.take_left']
  · simp [functionCall, functionInit, reset_global_updates]

/-- Witness for `function_global_updates`: two syntactically different
session runners that agree on the combined target list give the same
call outcome. -/
theorem function_global_updates_witness :
    functionCall (fun _ _ => ([9] : List Nat))
        (⟨["a"], [5], true, [], []⟩ : TFFunction Nat Nat) [7] =
      functionCall (fun ts _ => ts.map (fun _ => 9))
        (⟨["a"], [5], true, [], []⟩ : TFFunction Nat Nat) [7] :=
  (function_global_updates ["a"] [] (⟨[]⟩ : TFState Nat Nat) [7] 0 [5]
    (fun _ _ => 0)).2.2.1 (fun _ _ => [9]) (fun ts _ => ts.map (fun _ => 9))
    ⟨["a"], [5], true, [], []⟩ rfl

/-!
### `src/odin/base.py` — `OdinFunction.input_var` (lazy placeholders)

`OdinFunction.__init__` parses `incoming` into the parallel lists
`_incoming` (a `None` for every entry given as a shape tuple, the object
otherwise) and `_input_shape`, sets `_input_var = None` and
`_local_input_var = {}`.  The `input_var` property builds the list on
first access: a `None` entry gets one fresh backend placeholder
(`T.placeholder` consumes a global id counter) that is also recorded in
`_local_input_var` under the entry's index; an incoming lasagne, keras
or odin layer only contributes already-existing variables and creates no
placeholder.  Once `_input_var` is a list it is returned unchanged.

`__init__` rejects any incoming entry that is neither a tuple/list nor
an object with an `output_shape` attribute, and backend placeholders
expose no `output_shape`, so the `T.is_placeholder(i)` branch of the
property is unreachable for constructible functions and is not
modelled.  (The keras branch tests `hasattr(tmp, 'len')`, which fails
for lists, so it appends a single entry.)
-/

/-- One parsed incoming entry: `shapeTuple` stands for `_incoming[idx]
is None` with its shape; the layer entries carry the input variables
the corresponding API branch fetches. -/
inductive Incoming where
  | shapeTuple (shape : List (Option Int))
  | lasagneLayer (inputVars : List Nat)
  | kerasLayer (inputVar : Nat)
  | odinLayer (inputVars : List Nat)
deriving DecidableEq

/-- The state the `input_var` property touches: the memo `_input_var`,
the dict `_local_input_var` (entry index to placeholder), and the
global placeholder id counter (`_PLACEHOLDER_ID`). -/
structure OFState where
  inputVarCache : Option (List Nat)
  localInputVar : List (Nat × Nat)
  nextPlaceholderId : Nat
deriving DecidableEq

/-- The fields set by `OdinFunction.__init__` (lines 136-138):
`_input_var = None`, `_local_input_var = {}`. -/
def ofInit (pid : Nat) : OFState := ⟨none, [], pid⟩

/-- The first-access loop of the `input_var` property: walks the parsed
incoming entries with their index, creating one fresh placeholder per
shape-tuple entry (recording it under the entry's index) and extending
the list with the layer-provided variables otherwise.  Returns the
built `_input_var` list, the `_local_input_var` entries, and the new
value of the placeholder id counter. -/
def buildInputVar : List Incoming → Nat → Nat → List Nat × List (Nat × Nat) × Nat
  | [], _, pid => ([], [], pid)
  | .shapeTuple _ :: rest, idx, pid =>
    let r := buildInputVar rest (idx + 1) (pid + 1)
    (pid :: r.1, (idx, pid) :: r.2.1, r.2.2)
  | .lasagneLayer vs :: rest, idx, pid =>
    let r := buildInputVar rest (idx + 1) pid
    (vs ++ r.1, r.2.1, r.2.2)
  | .kerasLayer v :: rest, idx, pid =>
    let r := buildInputVar rest (idx + 1) pid
    (v :: r.1, r.2.1, r.2.2)
  | .odinLayer vs :: rest, idx, pid =>
    let r := buildInputVar rest (idx + 1) pid
    (vs ++ r.1, r.2.1, r.2.2)

/-- The `input_var` property: returns the memoized list when
`_input_var` is not `None`, and otherwise builds it once. -/
def inputVar (incoming : List Incoming) (st : OFState) : List Nat × OFState :=
  match st.inputVarCache with
  | some iv => (iv, st)
  | none =>
    let r := buildInputVar incoming 0 st.nextPlaceholderId
    (r.1, ⟨some r.1, r.2.1, r.2.2⟩)

/-- The number of shape-tuple entries of the incoming list. -/
def countShapeTuples (incoming : List Incoming) : Nat :=
  incoming.countP (fun i => match i with | .shapeTuple _ => true | _ => false)

/-- The indices (from `idx0`) of the shape-tuple entries. -/
def shapeTupleIndices : List Incoming → Nat → List Nat
  | [], _ => []
  | .shapeTuple _ :: rest, idx => idx :: shapeTupleIndices rest (idx + 1)
  | _ :: rest, idx => shapeTupleIndices rest (idx + 1)

theorem buildInputVar_spec (incoming : List Incoming) (idx pid : Nat) :
    (buildInputVar incoming idx pid).2.2 = pid + countShapeTuples incoming ∧
    (buildInputVar incoming idx pid).2.1 =
      (shapeTupleIndices incoming idx).zip
        (List.range' pid (countShapeTuples incoming)) := by
  induction incoming generalizing idx pid with
  | nil => exact ⟨rfl, rfl⟩
  | cons i rest ih =>
    cases i with
    | shapeTuple s =>
      obtain ⟨h1, h2⟩ := ih (idx + 1) (pid + 1)
      refine ⟨?_, ?_⟩
      · simp only [buildInputVar, h1, countShapeTuples, List.countP_cons]
        simp [countShapeTuples] at h1 ⊢
        omega
      · simp only [buildInputVar, h2]
        have hc : countShapeTuples (Incoming.shapeTuple s :: rest) =
            countShapeTuples rest + 1 := by
          simp [countShapeTuples, List.countP_cons]
        rw [hc]
        simp only [shapeTupleIndices, List.range'_succ]
        rfl
    | lasagneLayer vs => exact ⟨(ih (idx + 1) pid).1, (ih (idx + 1) pid).2⟩
    | kerasLayer v => exact ⟨(ih (idx + 1) pid).1, (ih (idx + 1) pid).2⟩
    | odinLayer vs => exact ⟨(ih (idx + 1) pid).1, (ih (idx + 1) pid).2⟩

/-- C2: after construction the memo is `None`; the first access builds
the list, creating exactly one fresh placeholder per shape-tuple entry
— the counter advances by their number and `_local_input_var` maps
exactly the shape-tuple indices to the consecutively created fresh ids —
and accessing the property again returns the same list and leaves the
state (hence the placeholder counter) unchanged, so accessing
`input_var` twice equals accessing it once. -/
theorem input_var_lazy_once (incoming : List Incoming) (pid : Nat) (st : OFState) :
    (ofInit pid).inputVarCache = none ∧
    ((inputVar incoming (ofInit pid)).2.nextPlaceholderId =
        pid + countShapeTuples incoming ∧
      (inputVar incoming (ofInit pid)).2.localInputVar =
        (shapeTupleIndices incoming 0).zip
          (List.range' pid (countShapeTuples incoming)) ∧
      (inputVar incoming (ofInit pid)).2.inputVarCache =
        some (inputVar incoming (ofInit pid)).1) ∧
    inputVar incoming (inputVar incoming st).2 = inputVar incoming st := by
  refine ⟨rfl, ⟨?_, ?_, ?_⟩, ?_⟩
  · exact (buildInputVar_spec incoming 0 pid).1
  · exact (buildInputVar_spec incoming 0 pid).2
  · rfl
  · cases h : st.inputVarCache with
    | some iv => simp [inputVar, h]
    | none => simp [inputVar, h]

/-!
### `src/odin/base.py` — `OdinFunction.create_params`

`create_params(spec, shape, name, regularizable, trainable)` dispatches
on `spec`: a backend variable is checked for rank against `len(shape)`
(`RuntimeError`), a numpy array for shape equality (`RuntimeError`,
then wrapped by `T.variable`), a callable is invoked on the shape after
rejecting non-positive dimensions (`ValueError`; the produced array —
a placeholder result is first forced with `T.eval` — is additionally
checked for shape, `RuntimeError`), and anything else raises
`RuntimeError`.  Only after all checks do the two registry writes and
the tag writes happen, so a raise leaves `self.params` and
`self.params_tags` untouched — captured here by returning the updated
registries only in the success case.  (`tuple(shape)` in the callable
branch would raise `TypeError` on a `None` shape.)
-/

/-- A stored parameter value: a pre-existing backend variable of a
given rank, or a variable freshly created by `T.variable` from an
array of a given shape under the given name. -/
inductive PVal where
  | givenVar (ndim : Nat)
  | created (shape : List Int) (name : String)
deriving DecidableEq

/-- What the callable branch's `spec(shape)` produces: a backend
variable, a placeholder (later forced to an array of the shape `T.eval`
yields), or a plain array. -/
inductive CallRes where
  | isVar (ndim : Nat)
  | isPlaceholder (evalShape : List Int)
  | isArray (shape : List Int)
deriving DecidableEq

/-- The `spec` argument of `create_params`. -/
inductive ParamSpec where
  | variable (ndim : Nat)
  | ndarray (shape : List Int)
  | callable (f : List Int → CallRes)
  | other

/-- The Python exception classes `create_params` can raise. -/
inductive PyErr where
  | runtimeError
  | valueError
  | typeError
deriving DecidableEq

/-- Ordered-dict assignment `d[k] = v`: overwrite in place when the key
exists, append otherwise. -/
def dinsert [DecidableEq β] (l : List (β × α)) (k : β) (v : α) : List (β × α) :=
  if l.any (fun p => p.1 = k) then l.map (fun p => if p.1 = k then (k, v) else p)
  else l ++ [(k, v)]

/-- Source `OdinFunction.create_params`; the success value carries the updated
`self.params` and `self.params_tags` together with the stored variable,
an error carries the raised exception class (the registries are written
only after every check, so an error leaves them unchanged). -/
def create_params (spec : ParamSpec) (shape : Option (List Int)) (name : String)
    (regularizable trainable : Bool)
    (params : List (String × PVal)) (paramsTags : List (String × Bool)) :
    Except PyErr (List (String × PVal) × List (String × Bool) × PVal) :=
  let store : PVal → Except PyErr (List (String × PVal) × List (String × Bool) × PVal) :=
    fun v =>
      .ok (dinsert params name v,
        dinsert (dinsert paramsTags (name ++ "_regularizable") regularizable)
          (name ++ "_trainable") trainable, v)
  match spec with
  | .variable nd =>
    if shape.isSome && decide (nd ≠ (shape.getD []).length) then .error .runtimeError
    else store (.givenVar nd)
  | .ndarray s =>
    if shape.isSome && decide (s ≠ shape.getD []) then .error .runtimeError
    else store (.created s name)
  | .callable f =>
    match shape with
    | none => .error .typeError
    | some s =>
      if s.any (fun d => d ≤ 0) then .error .valueError
      else
        match f s with
        | .isVar nd => store (.givenVar nd)
        | .isPlaceholder es =>
          if es ≠ s then .error .runtimeError else store (.created s name)
        | .isArray as =>
          if as ≠ s then .error .runtimeError else store (.created s name)
  | .other => .error .runtimeError

/-- C3: with a concrete shape `s`, `create_params` raises
`RuntimeError` for a backend variable whose rank differs from `len(s)`,
`RuntimeError` for a numpy array whose shape differs from `s`,
`ValueError` for a callable when `s` has a non-positive dimension, and
`RuntimeError` when the spec is none of the three kinds; exactly the
non-raising calls store the resulting variable under `params[name]` and
the two booleans under the `_regularizable` and `_trainable` tag keys
(an error returns no registries, so both are left unchanged). -/
theorem create_params_checks (shape0 : Option (List Int)) (s : List Int)
    (name : String) (reg tr : Bool)
    (params : List (String × PVal)) (paramsTags : List (String × Bool))
    (nd : Nat) (arr : List Int) (f : List Int → CallRes)
    (hs : shape0 = some s) :
    (nd ≠ s.length →
      create_params (.variable nd) shape0 name reg tr params paramsTags =
        .error .runtimeError) ∧
    (arr ≠ s →
      create_params (.ndarray arr) shape0 name reg tr params paramsTags =
        .error .runtimeError) ∧
    ((∃ d ∈ s, d ≤ 0) →
      create_params (.callable f) shape0 name reg tr params paramsTags =
        .error .valueError) ∧
    (create_params .other shape0 name reg tr params paramsTags =
      .error .runtimeError) ∧
    (∀ spec : ParamSpec, ∀ res,
      create_params spec shape0 name reg tr params paramsTags = .ok res →
      ∃ v, res = (dinsert params name v,
        dinsert (dinsert paramsTags (name ++ "_regularizable") reg)
          (name ++ "_trainable") tr, v)) := by
  subst hs
  refine ⟨?_, ?_, ?_, rfl, ?_⟩
  · intro h
    simp [create_params, h]
  · intro h
    simp [create_params, h]
  · intro h
    have h' : s.any (fun d => d ≤ 0) = true := by
      obtain ⟨d, hd, hd0⟩ := h
      simp only [List.any_eq_true, decide_eq_true_eq]
      exact ⟨d, hd, hd0⟩
    simp [create_params, h']
  · intro spec res hok
    cases spec with
    | «variable» nd' =>
      rw [create_params] at hok
      split at hok
      · exact absurd hok (by simp)
      · exact ⟨.givenVar nd', (Except.ok.inj hok).symm⟩
    | ndarray arr' =>
      rw [create_params] at hok
      split at hok
      · exact absurd hok (by simp)
      · exact ⟨.created arr' name, (Except.ok.inj hok).symm⟩
    | callable g =>
      rw [create_params] at hok
      split at hok
      · exact absurd hok (by simp)
      · split at hok
        · exact ⟨_, (Except.ok.inj hok).symm⟩
        · split at hok
          · exact absurd hok (by simp)
          · exact ⟨.created s name, (Except.ok.inj hok).symm⟩
        · split at hok
          · exact absurd hok (by simp)
          · exact ⟨.created s name, (Except.ok.inj hok).symm⟩
    | other =>
      rw [create_params] at hok
      exact absurd hok (by simp)

/-- Witness for `create_params_checks` at a rank-mismatched variable
spec. -/
theorem create_params_checks_witness :
    (some [2, 3] : Option (List Int)) = some [2, 3] ∧
    ((3 : Nat) ≠ ([2, 3] : List Int).length →
      create_params (.variable 3) (some [2, 3]) "W" true true [] [] =
        .error .runtimeError) ∧
    create_params (.variable 3) (some [2, 3]) "W" true true [] [] =
      .error .runtimeError :=
  ⟨rfl,
   (create_params_checks (some [2, 3]) [2, 3] "W" true true [] [] 3 []
      (fun _ => .isVar 0) rfl).1,
   (create_params_checks (some [2, 3]) [2, 3] "W" true true [] [] 3 []
      (fun _ => .isVar 0) rfl).1 (by decide)⟩

/-!
### `src/odin/base.py` — `OdinFunction.get_params`

`get_params(globals, trainable, regularizable)` first recursively
collects the parameters of every non-`None` entry of `self._incoming`
when `globals` is truthy, then appends the local parameters: a
parameter named `n` is kept exactly when `params_tags[n + '_trainable']`
lies in `cond_trainable` and `params_tags[n + '_regularizable']` lies in
`cond_regularizable`, where each filter list is `[True]` for `True`,
`[False]` for `False`, and `[True, False]` otherwise (e.g. `None`).
A missing tag key is a `KeyError`, modelled by `Option`; parameter
values are identified by `Nat` ids.
-/

/-- The part of an `OdinFunction` that `get_params` reads: the parsed
incoming list (a `None` per shape-tuple entry, the incoming function
otherwise), `self.params` and `self.params_tags` in insertion order. -/
inductive OFun where
  | node (incoming : List (Option OFun)) (params : List (String × Nat))
      (paramsTags : List (String × Bool))

/-- Source `cond_trainable` / `cond_regularizable`: the admitted tag values
for one filter argument. -/
def condList (filter : Option Bool) : List Bool :=
  match filter with
  | some true => [true]
  | some false => [false]
  | _ => [true, false]

/-- The local-parameters list comprehension of `get_params`: walks
`self.params`, looks both tags up (a missing key is Python's
`KeyError`, hence `none`), and keeps the value when both tags are
admitted. -/
def localParams (tr reg : Option Bool) :
    List (String × Nat) → List (String × Bool) → Option (List Nat)
  | [], _ => some []
  | (n, v) :: rest, tags => do
    let t ← tags.lookup (n ++ "_trainable")
    let r ← tags.lookup (n ++ "_regularizable")
    let restP ← localParams tr reg rest tags
    pure (if (condList tr).contains t && (condList reg).contains r
      then v :: restP else restP)

mutual

/-- Source `OdinFunction.get_params`: the recursively collected incoming
parameters (when `globals`) followed by the local parameters. -/
def OFun.get_params (g : Bool) (tr reg : Option Bool) : OFun → Option (List Nat)
  | .node incoming params tags => do
    let gp ← if g then getParamsIncoming g tr reg incoming else pure []
    let lp ← localParams tr reg params tags
    pure (gp ++ lp)

/-- The `for i in self._incoming: if i is not None: params += ...`
loop. -/
def getParamsIncoming (g : Bool) (tr reg : Option Bool) :
    List (Option OFun) → Option (List Nat)
  | [] => some []
  | none :: rest => getParamsIncoming g tr reg rest
  | some f :: rest => do
    let p ← f.get_params g tr reg
    let r ← getParamsIncoming g tr reg rest
    pure (p ++ r)

end

/-- Both tag keys of every parameter are present (what `create_params`
guarantees). -/
def WellTagged (params : List (String × Nat)) (tags : List (String × Bool)) : Prop :=
  ∀ p ∈ params, (tags.lookup (p.1 ++ "_trainable")).isSome ∧
    (tags.lookup (p.1 ++ "_regularizable")).isSome

theorem localParams_characterization (tr reg : Option Bool)
    (params : List (String × Nat)) (tags : List (String × Bool))
    (h : WellTagged params tags) :
    localParams tr reg params tags =
      some ((params.filter (fun p =>
        (condList tr).contains ((tags.lookup (p.1 ++ "_trainable")).getD true) &&
        (condList reg).contains ((tags.lookup (p.1 ++ "_regularizable")).getD true))).map
          Prod.snd) := by
  induction params with
  | nil => rfl
  | cons p rest ih =>
    obtain ⟨ht, hr⟩ := h p (by simp)
    obtain ⟨t, ht'⟩ := Option.isSome_iff_exists.1 ht
    obtain ⟨r, hr'⟩ := Option.isSome_iff_exists.1 hr
    have hrest : WellTagged rest tags := fun q hq => h q (by simp [hq])
    cases p with
    | mk n v =>
      simp only [localParams, ht', hr', Option.bind_eq_bind, Option.some_bind,
        ih hrest, List.filter_cons]
      cases hc : ((condList tr).contains t && (condList reg).contains r) with
      | true =>
        have hm : t ∈ condList tr ∧ r ∈ condList reg := by simpa using hc
        simp [hc, hm]
      | false =>
        have hm : ¬(t ∈ condList tr ∧ r ∈ condList reg) := by simpa using hc
        simp [hc, hm]

/-- C4: with `globals = False`, `get_params` returns the local
parameters only; with `globals = True` it returns the concatenation of
the recursive `get_params` of each non-`None` incoming function
followed by the local parameters; and when every parameter has both
tags, a local parameter is kept exactly when its stored `_trainable`
tag is admitted by the trainable filter and its `_regularizable` tag by
the regularizable filter, the filter `None` admitting both values and
`True`/`False` admitting only that value. -/
theorem get_params_globals_and_filter (tr reg : Option Bool)
    (incoming : List (Option OFun)) (params : List (String × Nat))
    (tags : List (String × Bool)) (h : WellTagged params tags) :
    (OFun.get_params false tr reg (.node incoming params tags) =
      localParams tr reg params tags) ∧
    (OFun.get_params true tr reg (.node incoming params tags) = do
      let gp ← getParamsIncoming true tr reg incoming
      let lp ← localParams tr reg params tags
      pure (gp ++ lp)) ∧
    (∀ rest : List (Option OFun), ∀ f : OFun,
      getParamsIncoming true tr reg (none :: rest) =
        getParamsIncoming true tr reg rest ∧
      getParamsIncoming true tr reg (some f :: rest) = do
        let p ← f.get_params true tr reg
        let r ← getParamsIncoming true tr reg rest
        pure (p ++ r)) ∧
    (localParams tr reg params tags =
      some ((params.filter (fun p =>
        (condList tr).contains ((tags.lookup (p.1 ++ "_trainable")).getD true) &&
        (condList reg).contains ((tags.lookup (p.1 ++ "_regularizable")).getD true))).map
          Prod.snd)) ∧
    ((∀ b, (condList none).contains b = true) ∧
      ∀ b b' : Bool, (condList (some b')).contains b = true ↔ b = b') := by
  refine ⟨?_, rfl, fun rest f => ⟨rfl, rfl⟩, localParams_characterization tr reg params tags h, ?_, ?_⟩
  · rw [OFun.get_params]
    cases localParams tr reg params tags with
    | none => rfl
    | some l => simp
  · intro b; cases b <;> rfl
  · intro b b'; cases b <;> cases b' <;> simp [condList]

/-- Witness for `get_params_globals_and_filter` on a one-parameter
function with a child. -/
theorem get_params_globals_and_filter_witness :
    WellTagged [("W", 4)] [("W_regularizable", true), ("W_trainable", false)] ∧
    OFun.get_params false (some true) none
      (.node [none] [("W", 4)] [("W_regularizable", true), ("W_trainable", false)]) =
      localParams (some true) none [("W", 4)]
        [("W_regularizable", true), ("W_trainable", false)] :=
  ⟨by intro p hp; simp at hp; subst hp; constructor <;> rfl,
   (get_params_globals_and_filter (some true) none [none] [("W", 4)]
      [("W_regularizable", true), ("W_trainable", false)]
      (by intro p hp; simp at hp; subst hp; constructor <;> rfl)).1⟩

end OdinModel
